import Mathlib

/-!
Verification of the Shamir-style robust polynomial-recovery solver
(`solver.cpp`) against its natural-language specification.

The C++ program is shallowly embedded here:
* `BigInt` values become `Int` (arbitrary-precision signed integers);
  `long long` x-coordinates also become `Int`.
* `convertToBase10` (the base decoder) becomes a structurally identical
  loop over the reversed character list.
* `lagrange_evaluate` becomes a pair of `foldl`s mirroring the two
  nested loops, followed by truncating division (`Int.tdiv`, matching
  the C++ BigInt division, which truncates toward zero); the
  `throw std::runtime_error` on a zero denominator becomes an `Option`
  returning `none`.
* the recursive combination generator and the best-fit search in
  `processFile` become `generate_combinations` and `find_best_fit`.
* `processFile` / `main` control flow (file opening, JSON parsing,
  the error paths, uncaught C++ exceptions) is modelled by
  `processFileModel` / `mainModel` at the end of the definitions.
-/

namespace Solver

/-! ### Base decoder (`convertToBase10`, solver.cpp lines 18-36) -/

/-- The per-character digit mapping of `convertToBase10`:
`'0'..'9'` map to their value, `'a'..'z'` map to 10..35, and every
other character `c` falls into the `else` branch computing
`c - 'A' + 10` (solver.cpp lines 25-31).  No validation happens. -/
def digitVal (c : Char) : Int :=
  if '0' ≤ c ∧ c ≤ '9' then (c.toNat : Int) - ('0'.toNat : Int)
  else if 'a' ≤ c ∧ c ≤ 'z' then (c.toNat : Int) - ('a'.toNat : Int) + 10
  else (c.toNat : Int) - ('A'.toNat : Int) + 10

/-- The loop of `convertToBase10` (solver.cpp lines 23-34), which runs
over the digit string from its last character to its first,
accumulating `result += power * digit; power *= base`.  Here the
character list is already reversed, so the loop is a left fold. -/
def convertLoop (base : Int) : List Char → Int → Int → Int
  | [], result, _ => result
  | c :: cs, result, power => convertLoop base cs (result + power * digitVal c) (power * base)

/-- Function `convertToBase10` (solver.cpp lines 18-36): positional decoding of a
digit string in the given base, processing characters from rightmost
(least significant) to leftmost.  The C++ function contains no `throw`
and no validity check, so the embedding is a total function. -/
def convertToBase10 (numStr : List Char) (base : Int) : Int :=
  convertLoop base numStr.reverse 0 1

/-- Modelled from the spec (§4.1): a character is a valid digit for a
base iff it is `0-9` or a letter (case-insensitive) whose digit value
is below the base.  This is the spec-side notion used to state the
`MalformedDigit` claim; the source contains no such check. -/
def specValidDigit (c : Char) (base : Int) : Bool :=
  if '0' ≤ c ∧ c ≤ '9' then ((c.toNat : Int) - ('0'.toNat : Int)) < base
  else if 'a' ≤ c ∧ c ≤ 'z' then ((c.toNat : Int) - ('a'.toNat : Int) + 10) < base
  else if 'A' ≤ c ∧ c ≤ 'Z' then ((c.toNat : Int) - ('A'.toNat : Int) + 10) < base
  else false

/-- Modelled from the spec (§8, base-decoding round-trip): the standard
base-`b` digit-string encoding of a natural number, most significant
digit first, using `0-9` then lowercase letters. -/
def digitChar (d : Nat) : Char :=
  if d < 10 then Char.ofNat ('0'.toNat + d) else Char.ofNat ('a'.toNat + (d - 10))

/-- Modelled from the spec (§8): standard base-`b` encoding of `v`
(most significant digit first); `0` is encoded as `"0"`. -/
def encodeBase (b : Nat) (v : Nat) : List Char :=
  if v = 0 then ['0'] else ((Nat.digits b v).map digitChar).reverse

/-! ### Lagrange evaluator (`lagrange_evaluate`, solver.cpp lines 49-70) -/

/-- The inner loop of `lagrange_evaluate` (solver.cpp lines 56-60): for
an outer point `(xj, yj)` it folds over all points, skipping any point
whose x-coordinate equals `xj` (the C++ test is `p_i.first == p_j.first`,
comparing x-values, not indices), and accumulates
`num *= (x - x_i)`, `den *= (xj - x_i)` starting from `(yj, 1)`. -/
def basisFold (points : List (Int × Int)) (xj yj x : Int) : Int × Int :=
  points.foldl
    (fun nd pi => if pi.1 = xj then nd else (nd.1 * (x - pi.1), nd.2 * (xj - pi.1)))
    (yj, 1)

/-- The outer loop of `lagrange_evaluate` (solver.cpp lines 53-63):
cross-multiplying accumulation of the running numerator/denominator
pair, starting from `(0, 1)`. -/
def lagrangeNumDen (points : List (Int × Int)) (x : Int) : Int × Int :=
  points.foldl
    (fun acc pj =>
      let nd := basisFold points pj.1 pj.2 x
      (acc.1 * nd.2 + nd.1 * acc.2, acc.2 * nd.2))
    (0, 1)

/-- The value `lagrange_evaluate` returns when it does not throw:
`final_numerator / common_denominator`, a truncating (toward zero)
division, matching the C++ BigInt `/`. -/
def lagrangeEvalD (points : List (Int × Int)) (x : Int) : Int :=
  (lagrangeNumDen points x).1.tdiv (lagrangeNumDen points x).2

/-- Function `lagrange_evaluate` (solver.cpp lines 49-70): `none` models the
`throw std::runtime_error` on a zero `common_denominator`
(lines 65-68); otherwise the truncated quotient is returned. -/
def lagrange_evaluate (points : List (Int × Int)) (x : Int) : Option Int :=
  if (lagrangeNumDen points x).2 = 0 then none
  else some (lagrangeEvalD points x)

/-! ### Robust fit search (`processFile`, solver.cpp lines 106-147) -/

/-- The recursive combination generator (solver.cpp lines 112-144,
`generate_combinations`): for `count_needed = 0` the single formed
combination is emitted; otherwise the loop
`for (i = offset; i <= n - count_needed; ++i)` pushes `i` and recurses
with `(i + 1, count_needed - 1)`.  The resulting list of index
combinations is in the exact order the C++ recursion visits them. -/
def generate_combinations (n : Nat) : Nat → Nat → List (List Nat)
  | 0, _ => [[]]
  | need + 1, offset =>
    (List.range' offset (n - need - offset)).flatMap
      (fun i => (generate_combinations n need (i + 1)).map (fun c => i :: c))

/-- Building the point subset from combination indices
(solver.cpp lines 117-120). Out-of-range indices (never reached from
`find_best_fit`) default to `(0, 0)`. -/
def subsetOf (all : List (Int × Int)) (c : List Nat) : List (Int × Int) :=
  c.map (fun i => all.getD i (0, 0))

/-- The inlier count of one subset (solver.cpp lines 122-128): the
number of points `p` among all points with
`lagrange_evaluate(subset, p.x) == p.y`. -/
def inlierCount (all subset : List (Int × Int)) : Nat :=
  (all.filter (fun p => lagrange_evaluate subset p.1 = some p.2)).length

/-- One step of the best-fit update (solver.cpp lines 130-134): replace
the stored `(best_inlier_count, final_answer)` only when the new count
is strictly greater, in which case the answer becomes `P(0)` of the
current subset. -/
def bestStep (all : List (Int × Int)) (best : Int × Int) (c : List Nat) : Int × Int :=
  let subset := subsetOf all c
  let cnt : Int := inlierCount all subset
  if best.1 < cnt then (cnt, lagrangeEvalD subset 0) else best

/-- The robust fit search of `processFile` (solver.cpp lines 106-147):
fold the best-fit update over all combinations, starting from
`best_inlier_count = -1`, `final_answer = 0`.  Returns the pair
`(best_inlier_count, final_answer)`. -/
def find_best_fit (all : List (Int × Int)) (k : Nat) : Int × Int :=
  (generate_combinations all.length k 0).foldl (bestStep all) (-1, 0)

/-! ### Rational semantics of the evaluator

`ratLagrange` is the common-denominator Lagrange form of spec §4.2 read
over `ℚ`: the sum over points `(x_j, y_j)` of
`y_j * Π (t - x_i) / (x_j - x_i)`, the product running over the points
whose x-coordinate differs from `x_j` (exactly the points the C++ inner
loop does not skip). -/

/-- Exact rational value computed by the two loops of
`lagrange_evaluate`, before the final integer division. -/
def ratLagrange (points : List (Int × Int)) (x : Int) : ℚ :=
  (points.map (fun pj =>
      (pj.2 : ℚ) *
        ((points.filter (fun pi => ¬ pi.1 = pj.1)).map
            (fun pi => ((x : ℚ) - (pi.1 : ℚ)) / ((pj.1 : ℚ) - (pi.1 : ℚ)))).prod)).sum

/-- Positional value of a digit list (least significant first) in a
given base: the quantity `Σ d_i * base^i` accumulated by the
`convertToBase10` loop. -/
def positionalVal (base : Int) (ds : List Int) : Int :=
  ds.foldr (fun d acc => d + base * acc) 0

/-! ### Driver model (`processFile` / `main`, solver.cpp lines 76-166)

The file-handling shell is modelled just finely enough to express the
driver claims.  A command-line argument resolves to a `FileInput`:
a file that cannot be opened, a file whose contents fail JSON parsing
(both caught by `processFile`, lines 80-90), or a parsed JSON instance
carrying the `keys.k` field (as `some k` when it is a number, `none`
when it is missing or non-numeric, in which case the nlohmann `get`
conversion throws an uncaught exception) and the non-`keys` entries in
object-iteration order, each a triple of x-key string, base string and
value string. -/

/-- One command-line argument's resolved input, see section comment. -/
inductive FileInput where
  | unopenable
  | unparseable
  | parsed (keysK : Option Nat) (entries : List (List Char × List Char × List Char))

/-- Per-file outcome reported on the streams by `processFile`. -/
inductive Report where
  | openError
  | parseError
  | insufficientPoints (n k : Nat)
  | success (bestInlier : Int) (answer : Int)
  deriving DecidableEq

/-- Accumulator loop for the longest leading digit run, used by the
model of `std::stoll` / `std::stoi`. -/
def natPrefixVal : List Char → Nat → Nat
  | [], acc => acc
  | c :: cs, acc =>
    if c.isDigit then natPrefixVal cs (acc * 10 + (c.toNat - '0'.toNat)) else acc

/-- Model of `std::stoll` / `std::stoi` (standard library, called at
solver.cpp line 97): an optional sign followed by at least one decimal
digit parses to the value of the longest digit run (trailing characters
ignored); anything else throws `std::invalid_argument`, modelled as
`none`.  Leading whitespace and overflow are not modelled. -/
def stollModel : List Char → Option Int
  | '-' :: c :: cs => if c.isDigit then some (-(natPrefixVal (c :: cs) 0 : Int)) else none
  | '+' :: c :: cs => if c.isDigit then some ((natPrefixVal (c :: cs) 0 : Int)) else none
  | c :: cs => if c.isDigit then some ((natPrefixVal (c :: cs) 0 : Int)) else none
  | [] => none

/-- Decoding one JSON entry into a point (solver.cpp line 97):
`{std::stoll(key), convertToBase10(value, std::stoi(base))}`; `none`
models an uncaught exception from `stoll`/`stoi`. -/
def decodeEntry (e : List Char × List Char × List Char) : Option (Int × Int) := do
  let x ← stollModel e.1
  let b ← stollModel e.2.1
  pure (x, convertToBase10 e.2.2 b)

/-- Decoding the whole entry list (the loop at solver.cpp lines 95-98). -/
def decodeEntries (entries : List (List Char × List Char × List Char)) :
    Option (List (Int × Int)) :=
  entries.mapM decodeEntry

/-- Model of `processFile` (solver.cpp lines 76-153).  `some r` means
the function returns normally after reporting `r`; `none` means an
uncaught C++ exception escapes (missing or non-numeric `keys.k`,
non-numeric x-key or base string), which terminates the process.  The
`n < k` test (lines 100-104) returns before any combination is
generated or any evaluator call is made; only the final branch runs the
search. -/
def processFileModel : FileInput → Option Report
  | .unopenable => some .openError
  | .unparseable => some .parseError
  | .parsed keysK entries => do
    let k ← keysK
    let pts ← decodeEntries entries
    if pts.length < k then
      pure (.insufficientPoints pts.length k)
    else
      let r := find_best_fit pts k
      pure (.success r.1 r.2)

/-- The argument loop of `main` (solver.cpp lines 161-163): process
files in order; an uncaught exception aborts the process immediately
(`std::terminate`, exit status 134 = SIGABRT); otherwise continue, and
exit 0 after the last file. -/
def runFiles : List FileInput → Nat
  | [] => 0
  | f :: rest =>
    match processFileModel f with
    | none => 134
    | some _ => runFiles rest

/-- Model of `main` (solver.cpp lines 155-166): with zero file
arguments print usage and exit 1; otherwise run the files. -/
def mainModel (args : List FileInput) : Nat :=
  if args.isEmpty then 1 else runFiles args

/-! ## Lemmas about the base decoder -/

/-- Loop invariant of the `convertToBase10` loop: starting from
accumulator `r` and power `p`, it adds `p` times the positional value
of the remaining (least-significant-first) digits. -/
theorem convertLoop_eq (base : Int) (l : List Char) :
    ∀ r p : Int, convertLoop base l r p = r + p * positionalVal base (l.map digitVal) := by
  induction l with
  | nil => intro r p; simp [convertLoop, positionalVal]
  | cons c cs ih =>
    intro r p
    simp only [convertLoop, ih, List.map_cons, positionalVal, List.foldr_cons]
    ring

/-- The decoder `convertToBase10` computes the positional value of the digit string
under the unconditional three-branch digit mapping `digitVal`. -/
theorem convertToBase10_eq_positional (s : List Char) (base : Int) :
    convertToBase10 s base = positionalVal base (s.reverse.map digitVal) := by
  rw [convertToBase10, convertLoop_eq]; ring

/-! ## Lemmas about the Lagrange evaluator -/

/-- The inner-loop denominator accumulator never becomes zero: every
factor multiplied into it is `xj - x_i` for a point with `x_i ≠ xj`. -/
theorem basisFold_snd_ne_zero (points : List (Int × Int)) (xj yj x : Int) :
    (basisFold points xj yj x).2 ≠ 0 := by
  suffices h : ∀ init : Int × Int, init.2 ≠ 0 →
      (points.foldl
        (fun nd pi => if pi.1 = xj then nd else (nd.1 * (x - pi.1), nd.2 * (xj - pi.1)))
        init).2 ≠ 0 by
    exact h (yj, 1) one_ne_zero
  induction points with
  | nil => intro init h; exact h
  | cons p ps ih =>
    intro init h
    simp only [List.foldl_cons]
    by_cases hp : p.1 = xj
    · rw [if_pos hp]; exact ih init h
    · rw [if_neg hp]
      exact ih _ (mul_ne_zero h (sub_ne_zero_of_ne fun he => hp (by omega)))

/-- The common denominator accumulated by the outer loop never becomes
zero, whatever the input points are. -/
theorem lagrangeNumDen_snd_ne_zero (points : List (Int × Int)) (x : Int) :
    (lagrangeNumDen points x).2 ≠ 0 := by
  rw [lagrangeNumDen]
  generalize hl : points = l
  rw [← hl]
  suffices h : ∀ (l' : List (Int × Int)) (init : Int × Int), init.2 ≠ 0 →
      (l'.foldl
        (fun acc pj =>
          let nd := basisFold points pj.1 pj.2 x
          (acc.1 * nd.2 + nd.1 * acc.2, acc.2 * nd.2))
        init).2 ≠ 0 by
    exact h points (0, 1) one_ne_zero
  intro l'
  induction l' with
  | nil => intro init h; exact h
  | cons p ps ih =>
    intro init h
    simp only [List.foldl_cons]
    exact ih _ (mul_ne_zero h (basisFold_snd_ne_zero points p.1 p.2 x))

/-- The evaluator `lagrange_evaluate` never takes the error branch: the zero-test on
the common denominator always fails (see
`lagrangeNumDen_snd_ne_zero`). -/
theorem lagrange_evaluate_eq_some (points : List (Int × Int)) (x : Int) :
    lagrange_evaluate points x = some (lagrangeEvalD points x) := by
  rw [lagrange_evaluate, if_neg (lagrangeNumDen_snd_ne_zero points x)]

/-- Closed form of the inner loop: numerator `yj * Π (x - x_i)` and
denominator `Π (xj - x_i)`, both products over the points whose
x-coordinate differs from `xj`. -/
theorem basisFold_eq (points : List (Int × Int)) (xj yj x : Int) :
    basisFold points xj yj x =
      (yj * ((points.filter (fun p => ¬ p.1 = xj)).map (fun p => x - p.1)).prod,
        ((points.filter (fun p => ¬ p.1 = xj)).map (fun p => xj - p.1)).prod) := by
  suffices h : ∀ init : Int × Int,
      (points.foldl
        (fun nd pi => if pi.1 = xj then nd else (nd.1 * (x - pi.1), nd.2 * (xj - pi.1)))
        init) =
      (init.1 * ((points.filter (fun p => ¬ p.1 = xj)).map (fun p => x - p.1)).prod,
        init.2 * ((points.filter (fun p => ¬ p.1 = xj)).map (fun p => xj - p.1)).prod) by
    rw [basisFold, h (yj, 1)]
    simp
  induction points with
  | nil => intro init; simp
  | cons q qs ih =>
    intro init
    by_cases hq : q.1 = xj
    · simp only [List.foldl_cons, if_pos hq, List.filter_cons, hq]
      simpa using ih init
    · simp only [List.foldl_cons, if_neg hq, List.filter_cons]
      rw [ih]
      have hd : (decide ¬q.1 = xj) = true := by simp [hq]
      rw [if_pos hd]
      simp only [List.map_cons, List.prod_cons, Prod.mk.injEq]
      constructor <;> ring

/-- Quotient of two list products as the product of the quotients
(valid in `ℚ` even when a denominator vanishes). -/
theorem list_prod_div {α : Type} (L : List α) (f g : α → ℚ) :
    (L.map f).prod / (L.map g).prod = (L.map (fun a => f a / g a)).prod := by
  induction L with
  | nil => simp
  | cons a l ih => simp only [List.map_cons, List.prod_cons, ← ih, div_mul_div_comm]

/-- The two loops of `lagrange_evaluate` compute, as a rational number,
exactly the common-denominator Lagrange sum `ratLagrange`. -/
theorem lagrangeNumDen_div (points : List (Int × Int)) (x : Int) :
    ((lagrangeNumDen points x).1 : ℚ) / ((lagrangeNumDen points x).2 : ℚ) =
      ratLagrange points x := by
  have key : ∀ (l' : List (Int × Int)) (init : Int × Int), init.2 ≠ 0 →
      (((l'.foldl
          (fun acc pj =>
            let nd := basisFold points pj.1 pj.2 x
            (acc.1 * nd.2 + nd.1 * acc.2, acc.2 * nd.2))
          init).1 : ℚ) /
        ((l'.foldl
          (fun acc pj =>
            let nd := basisFold points pj.1 pj.2 x
            (acc.1 * nd.2 + nd.1 * acc.2, acc.2 * nd.2))
          init).2 : ℚ)) =
        (init.1 : ℚ) / (init.2 : ℚ) +
          (l'.map (fun pj =>
            ((basisFold points pj.1 pj.2 x).1 : ℚ) /
              ((basisFold points pj.1 pj.2 x).2 : ℚ))).sum := by
    intro l'
    induction l' with
    | nil => intro init h; simp
    | cons p ps ih =>
      intro init h
      have hnd := basisFold_snd_ne_zero points p.1 p.2 x
      simp only [List.foldl_cons, List.map_cons, List.sum_cons]
      rw [ih _ (mul_ne_zero h hnd)]
      have h' : ((init.2 : ℚ)) ≠ 0 := Int.cast_ne_zero.mpr h
      have hnd' : (((basisFold points p.1 p.2 x).2 : ℚ)) ≠ 0 := Int.cast_ne_zero.mpr hnd
      push_cast
      field_simp
      ring
  rw [lagrangeNumDen]
  rw [key points (0, 1) one_ne_zero]
  rw [ratLagrange]
  simp only [Int.cast_zero, Int.cast_one, zero_div, zero_add]
  congr 1
  apply List.map_congr_left
  intro pj _
  rw [basisFold_eq]
  push_cast [List.prod_hom _ (Int.castRingHom ℚ)]
  rw [List.map_map, List.map_map, mul_div_assoc, list_prod_div]
  congr 1
  congr 1
  apply List.map_congr_left
  intro a _
  simp only [Function.comp_apply]
  push_cast
  ring

/-- Exactness of the final truncating division: whenever the rational
Lagrange value is an integer `z`, the integer division performed by
`lagrange_evaluate` returns exactly `z`. -/
theorem lagrangeEvalD_exact (points : List (Int × Int)) (x : Int) (z : Int)
    (h : ratLagrange points x = (z : ℚ)) :
    lagrangeEvalD points x = z := by
  have hcd := lagrangeNumDen_snd_ne_zero points x
  have hdiv := lagrangeNumDen_div points x
  rw [h] at hdiv
  have hcd' : (((lagrangeNumDen points x).2 : ℚ)) ≠ 0 := Int.cast_ne_zero.mpr hcd
  rw [div_eq_iff hcd'] at hdiv
  have hz : (lagrangeNumDen points x).1 = (lagrangeNumDen points x).2 * z := by
    exact_mod_cast hdiv.trans (mul_comm _ _)
  rw [lagrangeEvalD, hz, Int.mul_tdiv_cancel_left _ hcd]

/-! ## Bridge to Mathlib's Lagrange interpolation -/

/-- Sum of a mapped list as a sum over its index range. -/
theorem list_sum_map_range {α : Type} (L : List α) (f : α → ℚ) (d : α) :
    (L.map f).sum = ∑ i ∈ Finset.range L.length, f (L.getD i d) := by
  induction L with
  | nil => simp
  | cons a l ih =>
    rw [List.map_cons, List.sum_cons, ih, List.length_cons, Finset.sum_range_succ']
    simp [add_comm]

/-- Product of a mapped list as a product over its index range. -/
theorem list_prod_map_range {α : Type} (L : List α) (f : α → ℚ) (d : α) :
    (L.map f).prod = ∏ i ∈ Finset.range L.length, f (L.getD i d) := by
  induction L with
  | nil => simp
  | cons a l ih =>
    rw [List.map_cons, List.prod_cons, ih, List.length_cons, Finset.prod_range_succ']
    simp [mul_comm]

/-- Product over a filtered list as a product of `if`-guarded factors
over the whole list. -/
theorem prod_filter_map {α : Type} (L : List α) (P : α → Prop) [DecidablePred P] (h : α → ℚ) :
    ((L.filter (fun a => P a)).map h).prod =
      (L.map (fun a => if P a then h a else 1)).prod := by
  induction L with
  | nil => simp
  | cons a l ih =>
    by_cases hP : P a
    · simp [List.filter_cons, hP, ih]
    · simp [List.filter_cons, hP, ih]

/-- Bridge lemma: on a point list with pairwise distinct x-coordinates
whose y-values are the values of a polynomial `Q` over `ℚ` of degree
below the number of points, the common-denominator Lagrange sum
computed by the evaluator's loops is exactly `Q(t)`. -/
theorem ratLagrange_eq_eval (pts : List (Int × Int)) (t : Int)
    (hx : (pts.map Prod.fst).Nodup) (Q : Polynomial ℚ)
    (hdeg : Q.degree < pts.length)
    (hval : ∀ p ∈ pts, Polynomial.eval ((p.1 : ℚ)) Q = (p.2 : ℚ)) :
    ratLagrange pts t = Polynomial.eval ((t : ℚ)) Q := by
  classical
  set n := pts.length with hn
  set v : ℕ → ℚ := fun i => ((pts.getD i (0, 0)).1 : ℚ) with hv
  have hmem : ∀ i, i < n → pts.getD i (0, 0) ∈ pts := by
    intro i hi
    rw [List.getD_eq_getElem _ _ (by omega)]
    exact List.getElem_mem _
  have hxne : ∀ i j, i < n → j < n → i ≠ j →
      ¬ (pts.getD i (0, 0)).1 = (pts.getD j (0, 0)).1 := by
    intro i j hi hj hne heq
    have hi' : i < (pts.map Prod.fst).length := by simpa using hi
    have hj' : j < (pts.map Prod.fst).length := by simpa using hj
    have hil : i < pts.length := by omega
    have hjl : j < pts.length := by omega
    have hg : (pts.map Prod.fst).get ⟨i, hi'⟩ = (pts.map Prod.fst).get ⟨j, hj'⟩ := by
      simp only [List.get_eq_getElem, List.getElem_map]
      rw [List.getD_eq_getElem pts (0, 0) hil, List.getD_eq_getElem pts (0, 0) hjl] at heq
      exact heq
    have := (hx.get_inj_iff).mp hg
    exact hne (congrArg Fin.val this)
  have hinj : Set.InjOn v ((Finset.range n : Finset ℕ) : Set ℕ) := by
    intro i hi j hj hij
    simp only [Finset.coe_range, Set.mem_Iio] at hi hj
    by_contra hne
    apply hxne i j hi hj hne
    simp only [hv] at hij
    exact_mod_cast hij
  have hQ := Lagrange.eq_interpolate (s := Finset.range n) (v := v) (f := Q) hinj
    (by simpa [Finset.card_range] using hdeg)
  have step1 : ratLagrange pts t =
      ∑ i ∈ Finset.range n, Polynomial.eval (v i) Q *
        Polynomial.eval ((t : ℚ)) (Lagrange.basis (Finset.range n) v i) := by
    rw [ratLagrange, list_sum_map_range _ _ (0, 0)]
    refine Finset.sum_congr rfl ?_
    intro i hi
    have hi' : i < n := Finset.mem_range.mp hi
    congr 1
    · rw [hval _ (hmem i hi')]
    · rw [prod_filter_map, list_prod_map_range _ _ (0, 0)]
      rw [Lagrange.basis, Polynomial.eval_prod]
      rw [← Finset.mul_prod_erase _ _ hi]
      have hself : ¬ ¬ (pts.getD i (0, 0)).1 = (pts.getD i (0, 0)).1 := by simp
      rw [if_neg hself, one_mul]
      refine Finset.prod_congr rfl ?_
      intro j hj
      rcases Finset.mem_erase.mp hj with ⟨hji, hjn⟩
      have hjn' : j < n := Finset.mem_range.mp hjn
      rw [if_pos (hxne j i hjn' hi' hji)]
      simp only [Lagrange.basisDivisor, Polynomial.eval_mul, Polynomial.eval_C,
        Polynomial.eval_sub, Polynomial.eval_X]
      rw [hv]
      rw [div_eq_mul_inv, mul_comm]
  rw [step1]
  conv_rhs => rw [hQ]
  rw [Lagrange.interpolate_apply, Polynomial.eval_finset_sum]
  refine Finset.sum_congr rfl ?_
  intro i _
  rw [Polynomial.eval_mul, Polynomial.eval_C]

/-- Integer-level correctness of the evaluator: on points sampled from
an integer-coefficient polynomial `P` of degree below the number of
points, with pairwise distinct x-coordinates, `lagrange_evaluate`
returns exactly `P(t)` (the throw branch is not taken and the final
truncating division is exact). -/
theorem lagrange_evaluate_poly (P : Polynomial ℤ) (pts : List (Int × Int)) (t : Int)
    (hx : (pts.map Prod.fst).Nodup)
    (hval : ∀ p ∈ pts, p.2 = P.eval p.1)
    (hdeg : P.degree < pts.length) :
    lagrange_evaluate pts t = some (P.eval t) := by
  have hrat : ratLagrange pts t = ((P.eval t : ℤ) : ℚ) := by
    have h := ratLagrange_eq_eval pts t hx (P.map (Int.castRingHom ℚ))
      (by rwa [Polynomial.degree_map_eq_of_injective Int.cast_injective])
      (by
        intro p hp
        rw [Polynomial.eval_map, hval p hp]
        exact Polynomial.eval₂_at_apply (Int.castRingHom ℚ) p.1)
    rw [h, Polynomial.eval_map]
    exact Polynomial.eval₂_at_apply (Int.castRingHom ℚ) t
  rw [lagrange_evaluate_eq_some, lagrangeEvalD_exact pts t _ hrat]

/-! ## The search on a full point set (`n == k`) -/

/-- When exactly `need` indices remain to be chosen and exactly `need`
positions remain available, the generator emits the single combination
`offset, offset+1, …, n-1`. -/
theorem generate_combinations_full (n : Nat) :
    ∀ need offset, offset + need = n →
      generate_combinations n need offset = [List.range' offset need] := by
  intro need
  induction need with
  | zero => intro offset _; rfl
  | succ m ih =>
    intro offset h
    have h1 : n - m - offset = 1 := by omega
    rw [generate_combinations, h1]
    have h2 : List.range' offset 1 = [offset] := rfl
    rw [h2, List.flatMap_cons, List.flatMap_nil, ih (offset + 1) (by omega)]
    simp [List.range'_succ]

/-- Reading every index of a list back through `getD` returns the list. -/
theorem map_getD_range {α : Type} (l : List α) (d : α) :
    (List.range l.length).map (fun i => l.getD i d) = l := by
  induction l with
  | nil => rfl
  | cons a l ih =>
    rw [List.length_cons, List.range_succ_eq_map, List.map_cons, List.map_map]
    simp only [List.getD_cons_zero, Function.comp_def, List.getD_cons_succ]
    rw [ih]

/-- The subset built from the full index combination is the whole
point list. -/
theorem subsetOf_full (pts : List (Int × Int)) :
    subsetOf pts (List.range' 0 pts.length) = pts := by
  rw [subsetOf, ← List.range_eq_range', map_getD_range]

/-- If the candidate polynomial reproduces every point, the inlier
count is the full point count. -/
theorem inlierCount_all (all subset : List (Int × Int))
    (h : ∀ p ∈ all, lagrange_evaluate subset p.1 = some p.2) :
    inlierCount all subset = all.length := by
  rw [inlierCount]
  have : all.filter (fun p => lagrange_evaluate subset p.1 = some p.2) = all :=
    List.filter_eq_self.mpr (fun a ha => by simp [h a ha])
  rw [this]

/-- With `k = n` the search scores the single full combination and
reports its inlier count `n`. -/
theorem find_best_fit_full (pts : List (Int × Int))
    (hall : ∀ p ∈ pts, lagrange_evaluate pts p.1 = some p.2) :
    (find_best_fit pts pts.length).1 = pts.length := by
  rw [find_best_fit, generate_combinations_full pts.length pts.length 0 (by omega)]
  rw [List.foldl_cons, List.foldl_nil, bestStep, subsetOf_full,
    inlierCount_all pts pts hall]
  rw [if_pos (by omega : (-1 : Int) < (pts.length : Int))]

/-! ## Claim theorems (first group) -/

/-- C1: for every polynomial `P` with integer coefficients of degree
at most `k-1` (`degree < k`, `k` the number of points) and every list
of `k` points `(x, P(x))` with pairwise distinct x-coordinates,
`lagrange_evaluate` returns exactly `P(t)` for every integer target
`t`; consequently the robust-fit search run on such a point set with
`n == k` reports `inlier_count == n`. -/
theorem claim_lagrange_exactness (P : Polynomial ℤ) (pts : List (Int × Int))
    (hx : (pts.map Prod.fst).Nodup)
    (hval : ∀ p ∈ pts, p.2 = Polynomial.eval p.1 P)
    (hdeg : P.degree < pts.length) :
    (∀ t : Int, lagrange_evaluate pts t = some (Polynomial.eval t P)) ∧
    (find_best_fit pts pts.length).1 = pts.length := by
  have h1 : ∀ t : Int, lagrange_evaluate pts t = some (Polynomial.eval t P) :=
    fun t => lagrange_evaluate_poly P pts t hx hval hdeg
  refine ⟨h1, find_best_fit_full pts ?_⟩
  intro p hp
  rw [h1 p.1, hval p hp]

/-- Witness for C1 at the spec's exact scenario (§8): the line
`y = 3x + 2` through `(1,5)` and `(2,8)`; `P(0) = 2` is reproduced and
the search on `n = k = 2` reports 2 inliers. -/
theorem claim_lagrange_exactness_witness :
    (([((1 : Int), (5 : Int)), (2, 8)]).map Prod.fst).Nodup ∧
    (∀ p ∈ ([((1 : Int), (5 : Int)), (2, 8)] : List (Int × Int)),
      p.2 = Polynomial.eval p.1 (Polynomial.C 3 * Polynomial.X + Polynomial.C 2)) ∧
    (Polynomial.C (3 : Int) * Polynomial.X + Polynomial.C 2).degree <
      (((2 : ℕ) : WithBot ℕ)) ∧
    lagrange_evaluate [(1, 5), (2, 8)] 0 = some 2 ∧
    (find_best_fit [(1, 5), (2, 8)] 2).1 = 2 := by
  have hx : (([((1 : Int), (5 : Int)), (2, 8)]).map Prod.fst).Nodup := by decide
  have hval : ∀ p ∈ ([((1 : Int), (5 : Int)), (2, 8)] : List (Int × Int)),
      p.2 = Polynomial.eval p.1 (Polynomial.C 3 * Polynomial.X + Polynomial.C 2) := by
    intro p hp
    simp only [List.mem_cons, List.mem_singleton] at hp
    rcases hp with rfl | rfl | h
    · simp
    · simp
    · cases h
  have hdeg : (Polynomial.C (3 : Int) * Polynomial.X + Polynomial.C 2).degree <
      (((2 : ℕ) : WithBot ℕ)) := by
    rw [Polynomial.degree_linear (by norm_num : (3 : Int) ≠ 0)]
    decide
  obtain ⟨h1, h2⟩ := claim_lagrange_exactness
    (Polynomial.C 3 * Polynomial.X + Polynomial.C 2) [(1, 5), (2, 8)] hx hval hdeg
  exact ⟨hx, hval, hdeg, by simpa using h1 0, by simpa using h2⟩

/-- C3 (failing input for the claim): the point list `[(1,3), (1,5)]`
has two points with equal x-coordinate and different y-values, yet
`lagrange_evaluate` silently returns the value 8 (both points'
x-equality makes the inner loop skip every factor, so each basis
denominator is 1) instead of signaling `DegenerateBasis`. -/
theorem claim_degenerate_silent_value :
    lagrange_evaluate [(1, 3), (1, 5)] 0 = some 8 := by decide

/-- C7: on the instance with `k = 3` and base-10 points
`(1,3), (2,6), (3,11), (4,100)` — the first three on `y = x² + 2`, the
fourth corrupted — the search reports `inlier_count = 3` and constant
term 2. -/
theorem claim_scenario_corrupted :
    find_best_fit [(1, 3), (2, 6), (3, 11), (4, 100)] 3 = (3, 2) := by decide

/-- C9: the division-by-zero error branch of `lagrange_evaluate` is
unreachable for every input point list: the inner loop skips every
point whose x-coordinate equals the outer point's x-coordinate, so the
accumulated common denominator is never zero and the function always
returns the quotient, silently skipping duplicate x-coordinates. -/
theorem claim_division_branch_unreachable (points : List (Int × Int)) (x : Int) :
    (lagrangeNumDen points x).2 ≠ 0 ∧
    lagrange_evaluate points x = some (lagrangeEvalD points x) :=
  ⟨lagrangeNumDen_snd_ne_zero points x, lagrange_evaluate_eq_some points x⟩

/-- C10: for every base, `convertToBase10` on the empty digit string
returns 0 without signaling anything: the loop body never runs. -/
theorem claim_empty_string_decodes_zero (base : Int) :
    convertToBase10 [] base = 0 := rfl

/-- C4 (counterexample to the claim): `'2'` is not a valid digit for
base 2, yet `convertToBase10` signals nothing and returns the ordinary
value 2 — there is no `MalformedDigit` error anywhere in the code. -/
theorem claim_malformed_digit_counterexample :
    specValidDigit '2' 2 = false ∧ convertToBase10 ['2'] 2 = 2 := by decide

/-- C4 (amended): the decoder has no failure mode at all: on every
digit string and base it returns the positional value of the
unconditional three-branch digit mapping `digitVal`, never validating
characters against the base. -/
theorem claim_decoder_never_fails (s : List Char) (base : Int) :
    convertToBase10 s base = positionalVal base (s.reverse.map digitVal) :=
  convertToBase10_eq_positional s base

/-! ## Round-trip of encoding and decoding (C6) -/

/-- The source's digit mapping inverts the standard digit characters
for all 36 digit values. -/
theorem digitVal_digitChar : ∀ d : Nat, d < 36 → digitVal (digitChar d) = d := by decide

/-- The value `positionalVal` over cast digits is Mathlib's `Nat.ofDigits`. -/
theorem positionalVal_ofDigits (b : Nat) (L : List Nat) :
    positionalVal ((b : Int)) (L.map (Nat.cast : ℕ → ℤ)) = Nat.ofDigits ((b : Int)) L := by
  induction L with
  | nil => rfl
  | cons d l ih =>
    show (d : ℤ) + (b : ℤ) * positionalVal ((b : Int)) (l.map (Nat.cast : ℕ → ℤ)) =
      (d : ℤ) + (b : ℤ) * Nat.ofDigits ((b : Int)) l
    rw [ih]

/-- C6: for every natural number `v` and base `b` in `[2, 36]`,
decoding the standard base-`b` digit-string encoding of `v` with
`convertToBase10` returns `v`. -/
theorem claim_base_roundtrip (v b : Nat) (hb2 : 2 ≤ b) (hb36 : b ≤ 36) :
    convertToBase10 (encodeBase b v) ((b : Int)) = ((v : Int)) := by
  rcases eq_or_ne v 0 with rfl | hv
  · rw [encodeBase, if_pos rfl, convertToBase10_eq_positional]
    have h0 : digitVal '0' = 0 := by decide
    simp [positionalVal, h0]
  · rw [encodeBase, if_neg hv, convertToBase10_eq_positional, List.reverse_reverse,
      List.map_map]
    have hmap : (Nat.digits b v).map (digitVal ∘ digitChar) =
        (Nat.digits b v).map (Nat.cast : ℕ → ℤ) := by
      apply List.map_congr_left
      intro d hd
      have hdb : d < b := Nat.digits_lt_base (by omega) hd
      exact digitVal_digitChar d (by omega)
    rw [hmap, positionalVal_ofDigits, ← Nat.coe_int_ofDigits, Nat.ofDigits_digits]

/-- Witness for C6: base 16, value 255. -/
theorem claim_base_roundtrip_witness :
    2 ≤ 16 ∧ 16 ≤ 36 ∧
    convertToBase10 (encodeBase 16 255) (((16 : Nat) : Int)) = (((255 : Nat) : Int)) :=
  ⟨by norm_num, by norm_num, claim_base_roundtrip 255 16 (by norm_num) (by norm_num)⟩

/-! ## Enumeration order of the combination generator (C2) -/

/-- A strictly increasing list of naturals below `n`, all above `i`
with `i < n`, forces `i + length < n`. -/
theorem lt_of_increasing_bounds {n : Nat} :
    ∀ (l : List Nat) (i : Nat), i < n → l.Pairwise (· < ·) →
      (∀ j ∈ l, j < n) → (∀ j ∈ l, i < j) → i + l.length < n := by
  intro l
  induction l with
  | nil => intro i hi _ _ _; simpa
  | cons a t ih =>
    intro i hi hp hlt hgt
    rcases List.pairwise_cons.mp hp with ⟨hat, ht⟩
    have ha : a < n := hlt a (List.mem_cons_self a t)
    have hia : i < a := hgt a (List.mem_cons_self a t)
    have := ih a ha ht (fun j hj => hlt j (List.mem_cons_of_mem a hj)) hat
    simp only [List.length_cons]
    omega

/-- Membership in the generated combination list: exactly the strictly
increasing index lists of the demanded length within
`[offset, n)`. -/
theorem mem_generate_combinations (n : Nat) :
    ∀ (need offset : Nat) (c : List Nat),
      c ∈ generate_combinations n need offset ↔
        (c.length = need ∧ c.Pairwise (· < ·) ∧ ∀ i ∈ c, offset ≤ i ∧ i < n) := by
  intro need
  induction need with
  | zero =>
    intro offset c
    constructor
    · intro hc
      rcases List.mem_singleton.mp hc with rfl
      simp
    · intro ⟨hlen, _, _⟩
      rw [List.eq_nil_of_length_eq_zero hlen]
      exact List.mem_singleton.mpr rfl
  | succ m ih =>
    intro offset c
    rw [generate_combinations, List.mem_flatMap]
    constructor
    · rintro ⟨i, hi, hc⟩
      rcases List.mem_map.mp hc with ⟨c', hc', rfl⟩
      rcases List.mem_range'_1.mp hi with ⟨hoi, hin⟩
      rcases (ih (i + 1) c').mp hc' with ⟨hlen, hpair, hbnd⟩
      refine ⟨by simp [hlen], ?_, ?_⟩
      · rw [List.pairwise_cons]
        exact ⟨fun j hj => by have := hbnd j hj; omega, hpair⟩
      · intro j hj
        rcases List.mem_cons.mp hj with rfl | hj'
        · omega
        · have := hbnd j hj'
          omega
    · rintro ⟨hlen, hpair, hbnd⟩
      match c with
      | [] => simp at hlen
      | i :: c' =>
        rcases List.pairwise_cons.mp hpair with ⟨hic, hp'⟩
        have hio : offset ≤ i ∧ i < n := hbnd i (List.mem_cons_self i c')
        have hcount : i + c'.length < n :=
          lt_of_increasing_bounds c' i hio.2 hp'
            (fun j hj => (hbnd j (List.mem_cons_of_mem i hj)).2) hic
        refine ⟨i, List.mem_range'_1.mpr ⟨hio.1, by simp at hlen; omega⟩, ?_⟩
        refine List.mem_map.mpr ⟨c', ?_, rfl⟩
        refine (ih (i + 1) c').mpr ⟨by simpa using hlen, hp', ?_⟩
        intro j hj
        exact ⟨hic j hj, (hbnd j (List.mem_cons_of_mem i hj)).2⟩

/-- The generator emits combinations in strictly increasing
lexicographic order (hence each exactly once). -/
theorem pairwise_lex_generate_combinations (n : Nat) :
    ∀ need offset,
      (generate_combinations n need offset).Pairwise (List.Lex (· < ·)) := by
  intro need
  induction need with
  | zero => intro offset; exact List.pairwise_singleton _ _
  | succ m ih =>
    intro offset
    rw [generate_combinations, List.pairwise_flatMap]
    constructor
    · intro i _
      exact (ih (i + 1)).map _ (fun _ _ h => List.Lex.cons h)
    · refine (List.pairwise_lt_range' offset (n - m - offset)).imp ?_
      intro i j hij x hx y hy
      rcases List.mem_map.mp hx with ⟨c₁, _, rfl⟩
      rcases List.mem_map.mp hy with ⟨c₂, _, rfl⟩
      exact List.Lex.rel hij

/-! ## The tie-breaking fold (C2) -/

/-- If no candidate strictly beats the stored count, the fold keeps the
stored pair unchanged. -/
theorem foldl_bestStep_const (all : List (Int × Int)) :
    ∀ (l : List (List Nat)) (b : Int × Int),
      (∀ c ∈ l, ¬ b.1 < (inlierCount all (subsetOf all c) : Int)) →
      l.foldl (bestStep all) b = b := by
  intro l
  induction l with
  | nil => intro b _; rfl
  | cons c cs ih =>
    intro b h
    rw [List.foldl_cons]
    have hstep : bestStep all b c = b := by
      show (if b.1 < ((inlierCount all (subsetOf all c) : Int)) then
        (((inlierCount all (subsetOf all c) : Int)), lagrangeEvalD (subsetOf all c) 0)
        else b) = b
      exact if_neg (h c (List.mem_cons_self c cs))
    rw [hstep]
    exact ih b (fun c' hc' => h c' (List.mem_cons_of_mem _ hc'))

/-- The strict-improvement fold returns the pair of the earliest
candidate attaining the maximal inlier count (provided some candidate
beats the initial count): the list splits as `l₁ ++ c₀ :: l₂` with all
of `l₁` strictly below `c₀` and nothing above it. -/
theorem foldl_bestStep_firstMax (all : List (Int × Int)) :
    ∀ (l : List (List Nat)) (b : Int × Int),
      (∃ c ∈ l, b.1 < (inlierCount all (subsetOf all c) : Int)) →
      ∃ c₀ l₁ l₂,
        l = l₁ ++ c₀ :: l₂ ∧
        l.foldl (bestStep all) b =
          (((inlierCount all (subsetOf all c₀) : Int)), lagrangeEvalD (subsetOf all c₀) 0) ∧
        (∀ c ∈ l₁, (inlierCount all (subsetOf all c) : Int) <
          ((inlierCount all (subsetOf all c₀) : Int))) ∧
        (∀ c ∈ l, (inlierCount all (subsetOf all c) : Int) ≤
          ((inlierCount all (subsetOf all c₀) : Int))) ∧
        b.1 < ((inlierCount all (subsetOf all c₀) : Int)) := by
  intro l
  induction l with
  | nil => rintro b ⟨c, hc, _⟩; cases hc
  | cons c cs ih =>
    intro b hex
    rw [List.foldl_cons]
    by_cases hc : b.1 < ((inlierCount all (subsetOf all c) : Int))
    · have hstep : bestStep all b c =
          (((inlierCount all (subsetOf all c) : Int)), lagrangeEvalD (subsetOf all c) 0) := by
        show (if b.1 < ((inlierCount all (subsetOf all c) : Int)) then
          (((inlierCount all (subsetOf all c) : Int)), lagrangeEvalD (subsetOf all c) 0)
          else b) = _
        exact if_pos hc
      rw [hstep]
      by_cases hex2 : ∃ c' ∈ cs, ((inlierCount all (subsetOf all c) : Int)) <
          ((inlierCount all (subsetOf all c') : Int))
      · obtain ⟨c₀, l₁, l₂, hsplit, hfold, hpre, hmax, hgt⟩ :=
          ih (((inlierCount all (subsetOf all c) : Int)),
            lagrangeEvalD (subsetOf all c) 0) hex2
        refine ⟨c₀, c :: l₁, l₂, by rw [List.cons_append, hsplit], hfold, ?_, ?_, ?_⟩
        · intro c' hc'
          rcases List.mem_cons.mp hc' with rfl | h
          · exact hgt
          · exact hpre c' h
        · intro c' hc'
          rcases List.mem_cons.mp hc' with rfl | h
          · exact le_of_lt hgt
          · exact hmax c' h
        · exact lt_trans hc hgt
      · push_neg at hex2
        rw [foldl_bestStep_const all cs _ (fun c' hc' => not_lt.mpr (hex2 c' hc'))]
        refine ⟨c, [], cs, rfl, rfl, by simp, ?_, hc⟩
        intro c' hc'
        rcases List.mem_cons.mp hc' with rfl | h
        · exact le_refl _
        · exact hex2 c' h
    · have hstep : bestStep all b c = b := by
        show (if b.1 < ((inlierCount all (subsetOf all c) : Int)) then
          (((inlierCount all (subsetOf all c) : Int)), lagrangeEvalD (subsetOf all c) 0)
          else b) = b
        exact if_neg hc
      rw [hstep]
      have hex' : ∃ c' ∈ cs, b.1 < ((inlierCount all (subsetOf all c') : Int)) := by
        obtain ⟨c', hc', hlt⟩ := hex
        rcases List.mem_cons.mp hc' with rfl | h
        · exact absurd hlt hc
        · exact ⟨c', h, hlt⟩
      obtain ⟨c₀, l₁, l₂, hsplit, hfold, hpre, hmax, hgt⟩ := ih b hex'
      refine ⟨c₀, c :: l₁, l₂, by rw [List.cons_append, hsplit], hfold, ?_, ?_, hgt⟩
      · intro c' hc'
        rcases List.mem_cons.mp hc' with rfl | h
        · exact lt_of_le_of_lt (not_lt.mp hc) hgt
        · exact hpre c' h
      · intro c' hc'
        rcases List.mem_cons.mp hc' with rfl | h
        · exact le_of_lt (lt_of_le_of_lt (not_lt.mp hc) hgt)
        · exact hmax c' h

/-- Distinct indices into a point list with pairwise distinct
x-coordinates read distinct x-coordinates. -/
theorem getD_fst_injOn (pts : List (Int × Int)) (hx : (pts.map Prod.fst).Nodup) :
    ∀ i j, i < pts.length → j < pts.length → i ≠ j →
      ¬ (pts.getD i (0, 0)).1 = (pts.getD j (0, 0)).1 := by
  intro i j hi hj hne heq
  have hi' : i < (pts.map Prod.fst).length := by simpa using hi
  have hj' : j < (pts.map Prod.fst).length := by simpa using hj
  have hg : (pts.map Prod.fst).get ⟨i, hi'⟩ = (pts.map Prod.fst).get ⟨j, hj'⟩ := by
    simp only [List.get_eq_getElem, List.getElem_map]
    rw [List.getD_eq_getElem pts (0, 0) hi, List.getD_eq_getElem pts (0, 0) hj] at heq
    exact heq
  have := (hx.get_inj_iff).mp hg
  exact hne (congrArg Fin.val this)

/-- A subset selected by strictly increasing in-range indices inherits
the pairwise-distinct-x invariant from the full point list. -/
theorem subsetOf_map_fst_nodup (pts : List (Int × Int)) (hx : (pts.map Prod.fst).Nodup)
    (c : List Nat) (hc : c.Pairwise (· < ·)) (hcb : ∀ i ∈ c, i < pts.length) :
    ((subsetOf pts c).map Prod.fst).Nodup := by
  rw [subsetOf, List.map_map]
  refine List.Nodup.map_on ?_ (hc.imp ne_of_lt)
  intro i hi j hj heq
  by_contra hne
  exact getD_fst_injOn pts hx i j (hcb i hi) (hcb j hj) hne heq

/-- C2 (amended): for `n ≥ k ≥ 1` and pairwise distinct x-coordinates,
the generator enumerates exactly the strictly increasing size-`k` index
sequences below `n`, in strictly increasing lexicographic order (each
exactly once); the search result is the earliest combination attaining
the maximal inlier count — every earlier combination scores strictly
lower, none scores higher — and the reported constant term is the
truncating division the evaluator performs on that subset at 0, which
equals the interpolating polynomial's constant term `Q(0)` whenever
`Q(0)` is an integer. -/
theorem claim_search_earliest_max (pts : List (Int × Int)) (k : Nat)
    (hk : 1 ≤ k) (hkn : k ≤ pts.length) (hx : (pts.map Prod.fst).Nodup) :
    (∀ c, c ∈ generate_combinations pts.length k 0 ↔
      (c.length = k ∧ c.Pairwise (· < ·) ∧ ∀ i ∈ c, i < pts.length)) ∧
    (generate_combinations pts.length k 0).Pairwise (List.Lex (· < ·)) ∧
    ∃ c₀ l₁ l₂,
      generate_combinations pts.length k 0 = l₁ ++ c₀ :: l₂ ∧
      find_best_fit pts k =
        (((inlierCount pts (subsetOf pts c₀) : Int)), lagrangeEvalD (subsetOf pts c₀) 0) ∧
      (∀ c ∈ l₁, (inlierCount pts (subsetOf pts c) : Int) <
        ((inlierCount pts (subsetOf pts c₀) : Int))) ∧
      (∀ c ∈ generate_combinations pts.length k 0,
        (inlierCount pts (subsetOf pts c) : Int) ≤
          ((inlierCount pts (subsetOf pts c₀) : Int))) ∧
      (∀ Q : Polynomial ℚ, Q.degree < (subsetOf pts c₀).length →
        (∀ p ∈ subsetOf pts c₀, Polynomial.eval ((p.1 : ℚ)) Q = ((p.2 : ℚ))) →
        ∀ z : Int, Polynomial.eval (0 : ℚ) Q = ((z : ℚ)) →
          lagrangeEvalD (subsetOf pts c₀) 0 = z) := by
  have hmem : ∀ c, c ∈ generate_combinations pts.length k 0 ↔
      (c.length = k ∧ c.Pairwise (· < ·) ∧ ∀ i ∈ c, i < pts.length) := by
    intro c
    rw [mem_generate_combinations]
    constructor
    · rintro ⟨h1, h2, h3⟩
      exact ⟨h1, h2, fun i hi => (h3 i hi).2⟩
    · rintro ⟨h1, h2, h3⟩
      exact ⟨h1, h2, fun i hi => ⟨Nat.zero_le i, h3 i hi⟩⟩
  refine ⟨hmem, pairwise_lex_generate_combinations pts.length k 0, ?_⟩
  have hfirst : List.range' 0 k ∈ generate_combinations pts.length k 0 := by
    refine (hmem _).mpr ⟨List.length_range' 0 1 k, List.pairwise_lt_range' 0 k, ?_⟩
    intro i hi
    have := List.mem_range'_1.mp hi
    omega
  have hex : ∃ c ∈ generate_combinations pts.length k 0,
      ((-1 : Int), (0 : Int)).1 < ((inlierCount pts (subsetOf pts c) : Int)) :=
    ⟨List.range' 0 k, hfirst, by show (-1 : Int) < _; omega⟩
  obtain ⟨c₀, l₁, l₂, hsplit, hfold, hpre, hmax, _⟩ :=
    foldl_bestStep_firstMax pts (generate_combinations pts.length k 0) (-1, 0) hex
  have hc₀mem : c₀ ∈ generate_combinations pts.length k 0 := by
    rw [hsplit]
    exact List.mem_append_right _ (List.mem_cons_self c₀ l₂)
  obtain ⟨hclen, hcpair, hcbnd⟩ := (hmem c₀).mp hc₀mem
  refine ⟨c₀, l₁, l₂, hsplit, ?_, hpre, hmax, ?_⟩
  · rw [find_best_fit]
    exact hfold
  · intro Q hdeg hQval z hz
    have hnod := subsetOf_map_fst_nodup pts hx c₀ hcpair hcbnd
    have hb := ratLagrange_eq_eval (subsetOf pts c₀) 0 hnod Q hdeg hQval
    apply lagrangeEvalD_exact
    rw [hb]
    rw [Int.cast_zero, hz]

/-- Witness for C2 (amended) at the point list `[(1,5), (2,8)]` with
`k = 1`. -/
theorem claim_search_earliest_max_witness :
    1 ≤ 1 ∧ 1 ≤ 2 ∧ (([((1 : Int), (5 : Int)), (2, 8)]).map Prod.fst).Nodup ∧
    ((∀ c, c ∈ generate_combinations 2 1 0 ↔
      (c.length = 1 ∧ c.Pairwise (· < ·) ∧ ∀ i ∈ c, i < 2)) ∧
    (generate_combinations 2 1 0).Pairwise (List.Lex (· < ·)) ∧
    ∃ c₀ l₁ l₂,
      generate_combinations 2 1 0 = l₁ ++ c₀ :: l₂ ∧
      find_best_fit [((1 : Int), (5 : Int)), (2, 8)] 1 =
        (((inlierCount [((1 : Int), (5 : Int)), (2, 8)]
            (subsetOf [((1 : Int), (5 : Int)), (2, 8)] c₀) : Int)),
          lagrangeEvalD (subsetOf [((1 : Int), (5 : Int)), (2, 8)] c₀) 0) ∧
      (∀ c ∈ l₁, (inlierCount [((1 : Int), (5 : Int)), (2, 8)]
          (subsetOf [((1 : Int), (5 : Int)), (2, 8)] c) : Int) <
        ((inlierCount [((1 : Int), (5 : Int)), (2, 8)]
          (subsetOf [((1 : Int), (5 : Int)), (2, 8)] c₀) : Int))) ∧
      (∀ c ∈ generate_combinations 2 1 0,
        (inlierCount [((1 : Int), (5 : Int)), (2, 8)]
          (subsetOf [((1 : Int), (5 : Int)), (2, 8)] c) : Int) ≤
          ((inlierCount [((1 : Int), (5 : Int)), (2, 8)]
            (subsetOf [((1 : Int), (5 : Int)), (2, 8)] c₀) : Int))) ∧
      (∀ Q : Polynomial ℚ,
        Q.degree < (subsetOf [((1 : Int), (5 : Int)), (2, 8)] c₀).length →
        (∀ p ∈ subsetOf [((1 : Int), (5 : Int)), (2, 8)] c₀,
          Polynomial.eval ((p.1 : ℚ)) Q = ((p.2 : ℚ))) →
        ∀ z : Int, Polynomial.eval (0 : ℚ) Q = ((z : ℚ)) →
          lagrangeEvalD (subsetOf [((1 : Int), (5 : Int)), (2, 8)] c₀) 0 = z)) := by
  refine ⟨by norm_num, by norm_num, by decide, ?_⟩
  exact claim_search_earliest_max [((1 : Int), (5 : Int)), (2, 8)] 1
    (by norm_num) (by norm_num) (by decide)

/-- C2 (counterexample to the claim as frozen): with points
`(1,0), (3,1)` and `k = 2`, the single (hence earliest maximal)
combination `[0, 1]` selects the whole set; its interpolating
polynomial `Q = X/2 - 1/2` (degree < 2, through both points) has
constant term `Q(0) = -1/2`, yet the search reports constant term `0`
(truncating integer division), which is not the interpolating
polynomial's constant term. -/
theorem claim_search_p0_counterexample :
    find_best_fit [((1 : Int), (0 : Int)), (3, 1)] 2 = (2, 0) ∧
    generate_combinations 2 2 0 = [[0, 1]] ∧
    subsetOf [((1 : Int), (0 : Int)), (3, 1)] [0, 1] = [(1, 0), (3, 1)] ∧
    (Polynomial.C (1 / 2 : ℚ) * Polynomial.X + Polynomial.C (-(1 / 2))).degree <
      (((2 : ℕ) : WithBot ℕ)) ∧
    (∀ p ∈ ([((1 : Int), (0 : Int)), (3, 1)] : List (Int × Int)),
      Polynomial.eval ((p.1 : ℚ))
        (Polynomial.C (1 / 2 : ℚ) * Polynomial.X + Polynomial.C (-(1 / 2))) = ((p.2 : ℚ))) ∧
    Polynomial.eval (0 : ℚ)
      (Polynomial.C (1 / 2 : ℚ) * Polynomial.X + Polynomial.C (-(1 / 2))) = -(1 / 2) ∧
    ((0 : Int) : ℚ) ≠ -(1 / 2) := by
  refine ⟨by decide, by decide, by decide, ?_, ?_, by simp, by norm_num⟩
  · rw [Polynomial.degree_linear (by norm_num : (1 / 2 : ℚ) ≠ 0)]
    decide
  · intro p hp
    simp only [List.mem_cons, List.mem_singleton] at hp
    rcases hp with rfl | rfl | h
    · simp
    · push_cast
      simp
      norm_num
    · cases h

/-! ## Driver claims (C5, C8) -/

/-- The loop `runFiles` exits 0 exactly when no file's processing dies with an
uncaught exception. -/
theorem runFiles_eq_zero_iff (l : List FileInput) :
    runFiles l = 0 ↔ ∀ f ∈ l, processFileModel f ≠ none := by
  induction l with
  | nil => simp [runFiles]
  | cons f r ih =>
    rw [runFiles]
    cases hf : processFileModel f with
    | none => simp [hf]
    | some rep => simp [hf, ih]

/-- C5: whenever the decoded point count `n` is below the threshold
`k`, `processFile` reports the insufficient-points error and returns
normally; the search branch — combination generation and evaluator
calls (`find_best_fit`) — is syntactically unreachable from the taken
branch of the `n < k` test. -/
theorem claim_insufficient_points (k : Nat)
    (entries : List (List Char × List Char × List Char)) (pts : List (Int × Int))
    (hdec : decodeEntries entries = some pts) (hlt : pts.length < k) :
    processFileModel (.parsed (some k) entries) =
      some (.insufficientPoints pts.length k) := by
  simp [processFileModel, hdec, hlt]

/-- Witness for C5: one point, threshold 3. -/
theorem claim_insufficient_points_witness :
    decodeEntries [(['1'], ['1', '0'], ['5'])] = some [((1 : Int), (5 : Int))] ∧
    ([((1 : Int), (5 : Int))] : List (Int × Int)).length < 3 ∧
    processFileModel (.parsed (some 3) [(['1'], ['1', '0'], ['5'])]) =
      some (.insufficientPoints 1 3) := by
  refine ⟨by decide, by decide, ?_⟩
  exact claim_insufficient_points 3 _ [((1 : Int), (5 : Int))] (by decide) (by decide)

/-- C8 (counterexample to the claim as frozen): one identifier is
supplied whose file opens and parses (e.g. content `{}`) but carries no
usable numeric `keys.k`; the nlohmann conversion throws, nothing
catches it, and the process aborts with exit status 134 ≠ 0 — so at
least one supplied identifier does not guarantee exit status 0. -/
theorem claim_exit_status_counterexample :
    [FileInput.parsed none []].length = 1 ∧
    mainModel [FileInput.parsed none []] ≠ 0 := by decide

/-- C8 (amended): the program exits 0 iff at least one identifier is
supplied and every instance is processed without an uncaught exception;
with zero identifiers it exits 1; unopenable files and JSON parse
errors are caught, reported to the error stream, and processing
continues with the remaining instances. -/
theorem claim_exit_status_amended (args : List FileInput) :
    (mainModel args = 0 ↔ (args ≠ [] ∧ ∀ f ∈ args, processFileModel f ≠ none)) ∧
    (∀ rest : List FileInput,
      runFiles (FileInput.unopenable :: rest) = runFiles rest ∧
      runFiles (FileInput.unparseable :: rest) = runFiles rest) := by
  constructor
  · cases args with
    | nil => simp [mainModel]
    | cons a l =>
      rw [mainModel]
      simp [runFiles_eq_zero_iff]
  · intro rest
    exact ⟨rfl, rfl⟩

end Solver
